import Mathlib

/-!
Shallow embedding of the Text-File-Analyzer core (analyzer.c, hashtable.c).

Words are modelled as the byte content of NUL-terminated C strings
(lists of byte values; a C string never contains the byte 0).
`char` signedness is implementation-defined in C; we model the
unsigned-`char` platform, so a byte contributes its value 0..255 to the
hash accumulator.  All words produced by the analyzer consist of bytes
97..122 (lowercase ASCII), where both signedness choices agree.

C integer counters only increase and the program is a single-shot pass,
so counters are modelled as `Nat` (signed overflow would be C UB).
-/

namespace TextAnalyzer

/-- The byte content of a word (a C string without its terminator). -/
abbrev Word := List Nat

/-- `struct Node`: an entry of the chained hash table (hashtable.h/ hashtable.c):
the owned word string and its occurrence count. The `next` pointer is the
list structure of the chain. -/
structure Node where
  word : Word
  count : Nat
deriving DecidableEq, Repr

/-- `struct HashTable`: the bucket count `size` and the bucket array `table`,
each bucket a chain of nodes (head = most recently inserted). -/
structure HashTable where
  size : Nat
  table : List (List Node)
deriving DecidableEq, Repr

/-- The djb2 accumulator loop of `hash` in hashtable.c:
`unsigned long hash = 5381; while ((c = *word++)) hash = ((hash << 5) + hash) + c;`
`unsigned long` is 64 bits (LP64), so the accumulator wraps mod 2^64. -/
def hashAcc (w : Word) : Nat :=
  w.foldl (fun h c => (h * 33 + c) % 2 ^ 64) 5381

/-- `hash` in hashtable.c returns `unsigned int` (32 bits): the 64-bit
accumulator is truncated mod 2^32 on return. -/
def hash (w : Word) : Nat :=
  hashAcc w % 2 ^ 32

/-- `create_hash_table(size)`: `NULL` when `size < 1`, otherwise a table of
`size` empty buckets (`calloc` zeroes the bucket pointers). -/
def create_hash_table (size : Nat) : Option HashTable :=
  if size < 1 then
    none
  else
    some { size := size, table := List.replicate size [] }

/-- The scan loop of `insert_word`: walk the chain; on the first node whose
word is `strcmp`-equal, increment its count and stop (`some` = incremented
chain); `none` = reached the end without a match. -/
def scanIncr (w : Word) : List Node → Option (List Node)
  | [] => none
  | nd :: rest =>
    if nd.word = w then
      some ({ nd with count := nd.count + 1 } :: rest)
    else
      (scanIncr w rest).map (nd :: ·)

/-- The effect of `insert_word` on the chain of the selected bucket:
increment the matching node if present, otherwise prepend a fresh node
with count 1 (the new node becomes the chain head). -/
def insertChain (w : Word) (chain : List Node) : List Node :=
  match scanIncr w chain with
  | some chain' => chain'
  | none => ⟨w, 1⟩ :: chain

/-- `insert_word(ht, word)`: bucket index is `hash(word) % ht->size`
(both operands converted to `unsigned int`; `size ≥ 1` for any table built
by `create_hash_table`), then the chain at that index is updated in place.
The model has no null handles, so the `ht == NULL || word == NULL` early
return has no counterpart; allocation is assumed to succeed (the claims
under study are conditioned on that). -/
def insert_word (ht : HashTable) (w : Word) : HashTable :=
  let index := hash w % ht.size
  { ht with table := ht.table.set index (insertChain w (ht.table.getD index [])) }

/-- Well-formedness that `create_hash_table` establishes and nothing in the
program ever breaks: the bucket array really has `size` buckets and
`size ≥ 1`. -/
def WF (ht : HashTable) : Prop :=
  ht.table.length = ht.size ∧ 0 < ht.size

instance (ht : HashTable) : Decidable (WF ht) := by
  unfold WF; infer_instance

/-! ### Observables of the word store -/

/-- All entries of the store whose word equals `w`, in bucket-then-chain
order. -/
def entriesFor (ht : HashTable) (w : Word) : List Node :=
  ht.table.flatten.filter (fun nd => nd.word = w)

/-- The total occurrence count recorded for `w` (sum over its entries;
0 when absent). -/
def wordCount (ht : HashTable) (w : Word) : Nat :=
  ((entriesFor ht w).map Node.count).sum

/-- Sum of the counts of every entry in the store. -/
def totalCount (ht : HashTable) : Nat :=
  (ht.table.flatten.map Node.count).sum

/-! ### Analysis engine (analyzer.c) -/

/-- `isspace` in the C locale. -/
def isspace (c : Nat) : Bool :=
  c = 32 || (9 ≤ c && c ≤ 13)

/-- `isalpha` in the C locale: ASCII letters only. -/
def isalpha (c : Nat) : Bool :=
  (65 ≤ c && c ≤ 90) || (97 ≤ c && c ≤ 122)

/-- `tolower` in the C locale. -/
def tolower (c : Nat) : Nat :=
  if 65 ≤ c && c ≤ 90 then c + 32 else c

/-- `#define MAX_WORD_LEN 100` in analyzer.c. -/
def MAX_WORD_LEN : Nat := 100

/-- `struct AppStats` (analyzer.h) minus the borrowed filename: the
counters, the 256-slot frequency table and the word store mutated by
`analyze_file`. -/
structure AppStats where
  char_count : Nat
  word_count : Nat
  line_count : Nat
  char_freq : List Nat
  word_counts : HashTable
deriving DecidableEq, Repr

/-- The locals of `analyze_file`'s read loop together with the stats:
`word_buffer` (already case-folded, `word_buffer_index` is its length)
and the `in_word` flag. -/
structure LoopState where
  stats : AppStats
  word_buffer : List Nat
  in_word : Bool
deriving DecidableEq, Repr

/-- One iteration of the `while ((c = fgetc(file)) != EOF)` loop body of
`analyze_file`, for the byte `c` (0..255): bump `char_count`, bump
`line_count` on `'\n'`, bump `char_freq[c]`, run the whitespace word
counter, then the alphabetic tokenizer. -/
def processByte (s : LoopState) (c : Nat) : LoopState :=
  let st := s.stats
  let st := { st with char_count := st.char_count + 1 }
  let st := if c = 10 then { st with line_count := st.line_count + 1 } else st
  let st := { st with char_freq := st.char_freq.set c (st.char_freq.getD c 0 + 1) }
  let wordStep :=
    if isspace c then
      (st, false)
    else if s.in_word then
      (st, true)
    else
      ({ st with word_count := st.word_count + 1 }, true)
  let st := wordStep.1
  let inw := wordStep.2
  if isalpha c then
    if s.word_buffer.length < MAX_WORD_LEN - 1 then
      { stats := st, word_buffer := s.word_buffer ++ [tolower c], in_word := inw }
    else
      { stats := st, word_buffer := s.word_buffer, in_word := inw }
  else
    if 0 < s.word_buffer.length then
      { stats := { st with word_counts := insert_word st.word_counts s.word_buffer },
        word_buffer := [], in_word := inw }
    else
      { stats := st, word_buffer := s.word_buffer, in_word := inw }

/-- The `if (word_buffer_index > 0)` flush after the loop: a pending token
is inserted before returning. -/
def flushState (s : LoopState) : AppStats :=
  if 0 < s.word_buffer.length then
    { s.stats with word_counts := insert_word s.stats.word_counts s.word_buffer }
  else
    s.stats

/-- The loop-local state at function entry: `word_buffer_index = 0`,
`in_word = 0`. -/
def initLoop (stats : AppStats) : LoopState :=
  { stats := stats, word_buffer := [], in_word := false }

/-- The whole successful path of `analyze_file`: stream every byte through
the loop body, then flush the pending token. -/
def analyzeBytes (input : List Nat) (stats : AppStats) : AppStats :=
  flushState (input.foldl processByte (initLoop stats))

/-- `analyze_file` including the open step: `none` models `fopen` failing,
where the function returns `-1` before touching anything; `some bytes`
models a readable file with those contents, processed then `0` returned.
The returned pair is (return code, the caller's stats after the call). -/
def analyze_file (contents : Option (List Nat)) (stats : AppStats) : Int × AppStats :=
  match contents with
  | none => (-1, stats)
  | some bytes => (0, analyzeBytes bytes stats)

/-- The stats a caller hands in for a fresh run: zero counters, a
zero-initialized 256-slot frequency table, and `n` empty buckets. -/
def freshStats (n : Nat) : AppStats :=
  { char_count := 0
    word_count := 0
    line_count := 0
    char_freq := List.replicate 256 0
    word_counts := { size := n, table := List.replicate n [] } }

/-- Invariant of every store the program can build: the bucket array has
`size` buckets, `size ≥ 1`, every entry sits in the bucket selected by the
code's hash of its word, and no bucket chain holds two entries for the
same word. -/
def StoreInv (ht : HashTable) : Prop :=
  ht.table.length = ht.size ∧ 0 < ht.size ∧
  (∀ i, ∀ nd ∈ ht.table.getD i [], hash nd.word % ht.size = i) ∧
  (∀ i v, (((ht.table.getD i []).filter (fun nd => nd.word = v))).length ≤ 1)

/-- Proof-side mirror of the whitespace word counter of `analyze_file`'s
loop: the number of whitespace-to-non-whitespace transitions in `input`,
starting with the `in_word` flag set as given. -/
def wsWords (inw : Bool) : List Nat → Nat
  | [] => 0
  | c :: rest =>
    if isspace c then wsWords false rest
    else if inw then wsWords true rest
    else 1 + wsWords true rest

/-- Proof-side projection of the loop body onto the pair
(word store, token buffer): the alphabetic-tokenizer part of
`processByte`. -/
def tokStep : HashTable × List Nat → Nat → HashTable × List Nat
  | (ht, buf), c =>
    if isalpha c then
      if buf.length < MAX_WORD_LEN - 1 then (ht, buf ++ [tolower c]) else (ht, buf)
    else if 0 < buf.length then (insert_word ht buf, []) else (ht, buf)

/-! ### List helper lemmas -/

theorem getD_replicate {α : Type} (n i : Nat) (d : α) :
    (List.replicate n d).getD i d = d := by
  induction n generalizing i with
  | zero => simp [List.getD]
  | succ n ih =>
    cases i with
    | zero => simp [List.replicate]
    | succ j => simp [List.replicate, List.getD, ih j]

theorem getD_set_self {α : Type} (l : List α) (i : Nat) (x d : α) (h : i < l.length) :
    (l.set i x).getD i d = x := by
  induction l generalizing i with
  | nil => simp at h
  | cons a t ih =>
    cases i with
    | zero => simp
    | succ j => simpa [List.getD] using ih j (by simpa using h)

theorem getD_set_ne {α : Type} (l : List α) (i j : Nat) (x d : α) (h : i ≠ j) :
    (l.set i x).getD j d = l.getD j d := by
  induction l generalizing i j with
  | nil => simp
  | cons a t ih =>
    cases i with
    | zero =>
      cases j with
      | zero => exact absurd rfl h
      | succ k => simp [List.getD]
    | succ i' =>
      cases j with
      | zero => simp [List.getD]
      | succ k => simpa [List.getD] using ih i' k (fun hc => h (by rw [hc]))

theorem flatten_replicate_nil {α : Type} (n : Nat) :
    (List.replicate n ([] : List α)).flatten = [] := by
  induction n with
  | zero => simp
  | succ n ih => simp [List.replicate, ih]

theorem flatten_replicate_set {α : Type} (n i : Nat) (x : List α) (h : i < n) :
    ((List.replicate n ([] : List α)).set i x).flatten = x := by
  induction n generalizing i with
  | zero => simp at h
  | succ n ih =>
    cases i with
    | zero => simp [List.replicate, flatten_replicate_nil]
    | succ j =>
      have : ((List.replicate n ([] : List α)).set j x).flatten = x :=
        ih j (by omega)
      simpa [List.replicate] using this

/-! ### Chain-level lemmas about the `insert_word` scan -/

theorem scanIncr_none_filter (w : Word) :
    ∀ c : List Node, scanIncr w c = none →
      c.filter (fun nd => nd.word = w) = [] := by
  intro c
  induction c with
  | nil => intro _; rfl
  | cons nd rest ih =>
    intro h
    by_cases hw : nd.word = w
    · simp [scanIncr, hw] at h
    · cases hrest : scanIncr w rest with
      | none => simp [List.filter_cons, hw, ih hrest]
      | some r' => simp [scanIncr, hw, hrest] at h

theorem scanIncr_some_filter_ne (w v : Word) (hvw : v ≠ w) :
    ∀ c c' : List Node, scanIncr w c = some c' →
      c'.filter (fun nd => nd.word = v) = c.filter (fun nd => nd.word = v) := by
  intro c
  induction c with
  | nil => intro c' h; simp [scanIncr] at h
  | cons nd rest ih =>
    intro c' h
    by_cases hw : nd.word = w
    · simp only [scanIncr, if_pos hw] at h
      injection h with h
      subst h
      have hnv : ¬ nd.word = v := by rw [hw]; exact fun hc => hvw hc.symm
      simp [List.filter_cons, hnv]
    · simp only [scanIncr, if_neg hw] at h
      cases hrest : scanIncr w rest with
      | none => rw [hrest] at h; exact Option.noConfusion h
      | some r' =>
        rw [hrest] at h
        simp only [Option.map_some'] at h
        injection h with h
        subst h
        simp [List.filter_cons, ih r' hrest]

theorem scanIncr_some_filter_self (w : Word) :
    ∀ c c' : List Node, scanIncr w c = some c' →
      (c'.filter (fun nd => nd.word = w)).length
          = (c.filter (fun nd => nd.word = w)).length ∧
      0 < (c.filter (fun nd => nd.word = w)).length ∧
      ((c'.filter (fun nd => nd.word = w)).map Node.count).sum
          = ((c.filter (fun nd => nd.word = w)).map Node.count).sum + 1 := by
  intro c
  induction c with
  | nil => intro c' h; simp [scanIncr] at h
  | cons nd rest ih =>
    intro c' h
    by_cases hw : nd.word = w
    · simp only [scanIncr, if_pos hw] at h
      injection h with h
      subst h
      simp [List.filter_cons, hw]
      omega
    · simp only [scanIncr, if_neg hw] at h
      cases hrest : scanIncr w rest with
      | none => rw [hrest] at h; exact Option.noConfusion h
      | some r' =>
        rw [hrest] at h
        simp only [Option.map_some'] at h
        injection h with h
        subst h
        have := ih r' hrest
        simp [List.filter_cons, hw]
        exact this

theorem scanIncr_some_sum (w : Word) :
    ∀ c c' : List Node, scanIncr w c = some c' →
      (c'.map Node.count).sum = (c.map Node.count).sum + 1 := by
  intro c
  induction c with
  | nil => intro c' h; simp [scanIncr] at h
  | cons nd rest ih =>
    intro c' h
    by_cases hw : nd.word = w
    · simp only [scanIncr, if_pos hw] at h
      injection h with h
      subst h
      simp
      omega
    · simp only [scanIncr, if_neg hw] at h
      cases hrest : scanIncr w rest with
      | none => rw [hrest] at h; exact Option.noConfusion h
      | some r' =>
        rw [hrest] at h
        simp only [Option.map_some'] at h
        injection h with h
        subst h
        simp [ih r' hrest]
        omega

theorem scanIncr_some_words (w : Word) :
    ∀ c c' : List Node, scanIncr w c = some c' →
      ∀ nd ∈ c', ∃ nd0 ∈ c, nd.word = nd0.word := by
  intro c
  induction c with
  | nil => intro c' h; simp [scanIncr] at h
  | cons nd0 rest ih =>
    intro c' h
    by_cases hw : nd0.word = w
    · simp only [scanIncr, if_pos hw] at h
      injection h with h
      subst h
      intro nd hnd
      rcases List.mem_cons.mp hnd with h1 | h1
      · exact ⟨nd0, List.mem_cons_self _ _, by rw [h1]⟩
      · exact ⟨nd, List.mem_cons_of_mem _ h1, rfl⟩
    · simp only [scanIncr, if_neg hw] at h
      cases hrest : scanIncr w rest with
      | none => rw [hrest] at h; exact Option.noConfusion h
      | some r' =>
        rw [hrest] at h
        simp only [Option.map_some'] at h
        injection h with h
        subst h
        intro nd hnd
        rcases List.mem_cons.mp hnd with h1 | h1
        · exact ⟨nd0, List.mem_cons_self _ _, by rw [h1]⟩
        · rcases ih r' hrest nd h1 with ⟨nd1, hnd1, hweq⟩
          exact ⟨nd1, List.mem_cons_of_mem _ hnd1, hweq⟩

theorem insertChain_filter_ne (w v : Word) (hvw : v ≠ w) (c : List Node) :
    (insertChain w c).filter (fun nd => nd.word = v)
      = c.filter (fun nd => nd.word = v) := by
  unfold insertChain
  cases h : scanIncr w c with
  | none =>
    have : ¬ (w = v) := fun hc => hvw hc.symm
    simp [List.filter_cons, this]
  | some c' => exact scanIncr_some_filter_ne w v hvw c c' h

theorem insertChain_filter_self_le (w : Word) (c : List Node) :
    (c.filter (fun nd => nd.word = w)).length
      ≤ ((insertChain w c).filter (fun nd => nd.word = w)).length := by
  unfold insertChain
  cases h : scanIncr w c with
  | none => simp [scanIncr_none_filter w c h, List.filter_cons]
  | some c' => exact le_of_eq (scanIncr_some_filter_self w c c' h).1.symm

theorem insertChain_filter_self_le_one (w : Word) (c : List Node)
    (hc : (c.filter (fun nd => nd.word = w)).length ≤ 1) :
    ((insertChain w c).filter (fun nd => nd.word = w)).length ≤ 1 := by
  unfold insertChain
  cases h : scanIncr w c with
  | none => simp [scanIncr_none_filter w c h, List.filter_cons]
  | some c' => rw [(scanIncr_some_filter_self w c c' h).1]; exact hc

theorem insertChain_filter_self_sum (w : Word) (c : List Node) :
    (((insertChain w c).filter (fun nd => nd.word = w)).map Node.count).sum
      = ((c.filter (fun nd => nd.word = w)).map Node.count).sum + 1 := by
  unfold insertChain
  cases h : scanIncr w c with
  | none => simp [scanIncr_none_filter w c h, List.filter_cons]
  | some c' => exact (scanIncr_some_filter_self w c c' h).2.2

theorem insertChain_sum (w : Word) (c : List Node) :
    ((insertChain w c).map Node.count).sum = (c.map Node.count).sum + 1 := by
  unfold insertChain
  cases h : scanIncr w c with
  | none => simp; omega
  | some c' => exact scanIncr_some_sum w c c' h

theorem insertChain_words (w : Word) (c : List Node) :
    ∀ nd ∈ insertChain w c, nd.word = w ∨ ∃ nd0 ∈ c, nd.word = nd0.word := by
  unfold insertChain
  cases h : scanIncr w c with
  | none =>
    intro nd hnd
    rcases List.mem_cons.mp hnd with h1 | h1
    · left; rw [h1]
    · right; exact ⟨nd, h1, rfl⟩
  | some c' =>
    intro nd hnd
    right
    exact scanIncr_some_words w c c' h nd hnd

theorem insertChain_cons_self (w : Word) (k : Nat) (c : List Node) :
    insertChain w (⟨w, k⟩ :: c) = ⟨w, k + 1⟩ :: c := by
  simp [insertChain, scanIncr]

/-! ### Table-level lemmas about `insert_word` -/

theorem flatten_set_insertChain_filter_ne (w v : Word) (hvw : v ≠ w) :
    ∀ (ts : List (List Node)) (i : Nat),
      ((ts.set i (insertChain w (ts.getD i []))).flatten).filter (fun nd => nd.word = v)
        = (ts.flatten).filter (fun nd => nd.word = v) := by
  intro ts
  induction ts with
  | nil => intro i; simp
  | cons b rest ih =>
    intro i
    cases i with
    | zero =>
      simp only [List.set, List.getD_cons_zero, List.flatten_cons, List.filter_append]
      rw [insertChain_filter_ne w v hvw]
    | succ j =>
      simp only [List.set, List.getD_cons_succ, List.flatten_cons, List.filter_append]
      rw [ih j]

theorem flatten_set_insertChain_filter_self_le (w : Word) :
    ∀ (ts : List (List Node)) (i : Nat),
      ((ts.flatten).filter (fun nd => nd.word = w)).length
        ≤ (((ts.set i (insertChain w (ts.getD i []))).flatten).filter
            (fun nd => nd.word = w)).length := by
  intro ts
  induction ts with
  | nil => intro i; simp
  | cons b rest ih =>
    intro i
    cases i with
    | zero =>
      simp only [List.set, List.getD_cons_zero, List.flatten_cons, List.filter_append,
        List.length_append]
      have := insertChain_filter_self_le w b
      omega
    | succ j =>
      simp only [List.set, List.getD_cons_succ, List.flatten_cons, List.filter_append,
        List.length_append]
      have := ih j
      omega

theorem flatten_set_insertChain_filter_self_sum (w : Word) :
    ∀ (ts : List (List Node)) (i : Nat), i < ts.length →
      ((((ts.set i (insertChain w (ts.getD i []))).flatten).filter
          (fun nd => nd.word = w)).map Node.count).sum
        = (((ts.flatten).filter (fun nd => nd.word = w)).map Node.count).sum + 1 := by
  intro ts
  induction ts with
  | nil => intro i h; simp at h
  | cons b rest ih =>
    intro i hi
    cases i with
    | zero =>
      simp only [List.set, List.getD_cons_zero, List.flatten_cons, List.filter_append,
        List.map_append, List.sum_append]
      have := insertChain_filter_self_sum w b
      omega
    | succ j =>
      simp only [List.set, List.getD_cons_succ, List.flatten_cons, List.filter_append,
        List.map_append, List.sum_append]
      have := ih j (by simpa using Nat.lt_of_succ_lt_succ hi)
      omega

theorem flatten_set_insertChain_sum (w : Word) :
    ∀ (ts : List (List Node)) (i : Nat), i < ts.length →
      (((ts.set i (insertChain w (ts.getD i []))).flatten).map Node.count).sum
        = ((ts.flatten).map Node.count).sum + 1 := by
  intro ts
  induction ts with
  | nil => intro i h; simp at h
  | cons b rest ih =>
    intro i hi
    cases i with
    | zero =>
      simp only [List.set, List.getD_cons_zero, List.flatten_cons, List.map_append,
        List.sum_append]
      have := insertChain_sum w b
      omega
    | succ j =>
      simp only [List.set, List.getD_cons_succ, List.flatten_cons, List.map_append,
        List.sum_append]
      have := ih j (by simpa using Nat.lt_of_succ_lt_succ hi)
      omega

theorem mem_flatten_exists_getD {α : Type} :
    ∀ (ts : List (List α)) (x : α), x ∈ ts.flatten →
      ∃ i, i < ts.length ∧ x ∈ ts.getD i [] := by
  intro ts
  induction ts with
  | nil => intro x hx; simp at hx
  | cons b rest ih =>
    intro x hx
    rw [List.flatten_cons, List.mem_append] at hx
    rcases hx with hx | hx
    · exact ⟨0, by simp, hx⟩
    · rcases ih x hx with ⟨i, hi, hmem⟩
      exact ⟨i + 1, by simpa using hi, by simpa [List.getD_cons_succ] using hmem⟩

/-- Under the bucket-placement invariant (`g` sends each stored word to its
bucket index), the entries for `v` anywhere in the table are exactly the
entries for `v` in bucket `g v`. -/
theorem flatten_filter_eq_bucket :
    ∀ (ts : List (List Node)) (g : Word → Nat),
      (∀ i, ∀ nd ∈ ts.getD i [], g nd.word = i) →
      ∀ v, (ts.flatten).filter (fun nd => nd.word = v)
            = (ts.getD (g v) []).filter (fun nd => nd.word = v) := by
  intro ts
  induction ts with
  | nil => intro g _ v; simp [List.getD]
  | cons b rest ih =>
    intro g hg v
    have hg0 : ∀ nd ∈ b, g nd.word = 0 := by
      intro nd hnd
      exact hg 0 nd (by simpa using hnd)
    have hgrest : ∀ i, ∀ nd ∈ rest.getD i [], g nd.word - 1 = i := by
      intro i nd hnd
      have := hg (i + 1) nd (by simpa [List.getD_cons_succ] using hnd)
      omega
    rw [List.flatten_cons, List.filter_append]
    cases hv : g v with
    | zero =>
      have hrest_nil : (rest.flatten).filter (fun nd => nd.word = v) = [] := by
        rw [List.filter_eq_nil_iff]
        intro nd hnd
        rcases mem_flatten_exists_getD rest nd hnd with ⟨i, _, hmem⟩
        have := hg (i + 1) nd (by simpa [List.getD_cons_succ] using hmem)
        intro hword
        rw [decide_eq_true_eq] at hword
        rw [hword] at this
        omega
      simp [hrest_nil, List.getD]
    | succ k =>
      have hb_nil : b.filter (fun nd => nd.word = v) = [] := by
        rw [List.filter_eq_nil_iff]
        intro nd hnd
        have := hg0 nd hnd
        intro hword
        rw [decide_eq_true_eq] at hword
        rw [hword] at this
        omega
      have hrest := ih (fun u => g u - 1) hgrest v
      have hgv : g v - 1 = k := by omega
      rw [hgv] at hrest
      simp [hb_nil, hrest, List.getD_cons_succ]

/-! ### The store invariant established by `create_hash_table` and
preserved by `insert_word` -/

theorem storeInv_create (n : Nat) (ht : HashTable)
    (h : create_hash_table n = some ht) : StoreInv ht := by
  unfold create_hash_table at h
  by_cases hn : n < 1
  · rw [if_pos hn] at h; exact Option.noConfusion h
  · rw [if_neg hn] at h
    injection h with h
    subst h
    refine ⟨by simp, Nat.not_lt.mp hn, ?_, ?_⟩
    · intro i nd hnd
      rw [getD_replicate] at hnd
      simp at hnd
    · intro i v
      rw [getD_replicate]
      simp

theorem insert_word_size (ht : HashTable) (w : Word) :
    (insert_word ht w).size = ht.size := rfl

theorem insert_word_table (ht : HashTable) (w : Word) :
    (insert_word ht w).table
      = ht.table.set (hash w % ht.size)
          (insertChain w (ht.table.getD (hash w % ht.size) [])) := rfl

theorem storeInv_insert (ht : HashTable) (w : Word) (h : StoreInv ht) :
    StoreInv (insert_word ht w) := by
  obtain ⟨hlen, hpos, hbuck, huniq⟩ := h
  have hi : hash w % ht.size < ht.table.length := by
    rw [hlen]; exact Nat.mod_lt _ hpos
  refine ⟨?_, ?_, ?_, ?_⟩
  · rw [insert_word_size, insert_word_table, List.length_set, hlen]
  · rw [insert_word_size]; exact hpos
  · intro j nd hnd
    rw [insert_word_size]
    rw [insert_word_table] at hnd
    by_cases hj : hash w % ht.size = j
    · rw [← hj] at hnd ⊢
      rw [getD_set_self _ _ _ _ hi] at hnd
      rcases insertChain_words w _ nd hnd with hw | ⟨nd0, hnd0, hweq⟩
      · rw [hw]
      · rw [hweq]
        exact hbuck _ nd0 hnd0
    · rw [getD_set_ne _ _ _ _ _ hj] at hnd
      exact hbuck j nd hnd
  · intro j v
    rw [insert_word_table]
    by_cases hj : hash w % ht.size = j
    · rw [← hj, getD_set_self _ _ _ _ hi]
      by_cases hvw : v = w
      · subst hvw
        exact insertChain_filter_self_le_one v _ (huniq _ v)
      · rw [insertChain_filter_ne w v hvw]
        exact huniq _ v
    · rw [getD_set_ne _ _ _ _ _ hj]
      exact huniq j v

theorem storeInv_foldl (ht : HashTable) (ws : List Word) (h : StoreInv ht) :
    StoreInv (ws.foldl insert_word ht) := by
  induction ws generalizing ht with
  | nil => exact h
  | cons w rest ih => exact ih _ (storeInv_insert ht w h)

theorem foldl_insert_size (ht : HashTable) (ws : List Word) :
    (ws.foldl insert_word ht).size = ht.size := by
  induction ws generalizing ht with
  | nil => rfl
  | cons w rest ih => rw [List.foldl_cons, ih, insert_word_size]

theorem storeInv_entries_le_one (ht : HashTable) (h : StoreInv ht) (v : Word) :
    (entriesFor ht v).length ≤ 1 := by
  obtain ⟨hlen, hpos, hbuck, huniq⟩ := h
  unfold entriesFor
  rw [flatten_filter_eq_bucket ht.table (fun u => hash u % ht.size) hbuck v]
  exact huniq _ v

/-! ### C5: failure to open mutates nothing -/

/-- C5: when the file cannot be opened, `analyze_file` returns the failure
indicator `-1` and the caller's stats — word store, frequency table and all
three counters — are exactly as supplied. -/
theorem open_failure_no_mutation (stats : AppStats) :
    (analyze_file none stats).1 = -1 ∧
    (analyze_file none stats).2 = stats := by
  exact ⟨rfl, rfl⟩

/-! ### C8: determinism -/

/-- C8: two runs of the analysis on the same input bytes, each from a fresh
zeroed stats record with an `n`-bucket empty store, agree on every
observable: the three counters, the frequency table, and the word-to-count
mapping of the store. -/
theorem analysis_deterministic (input : List Nat) (n : Nat) :
    (analyzeBytes input (freshStats n)).char_count
        = (analyzeBytes input (freshStats n)).char_count ∧
    (analyzeBytes input (freshStats n)).word_count
        = (analyzeBytes input (freshStats n)).word_count ∧
    (analyzeBytes input (freshStats n)).line_count
        = (analyzeBytes input (freshStats n)).line_count ∧
    (analyzeBytes input (freshStats n)).char_freq
        = (analyzeBytes input (freshStats n)).char_freq ∧
    ∀ w, wordCount (analyzeBytes input (freshStats n)).word_counts w
        = wordCount (analyzeBytes input (freshStats n)).word_counts w := by
  exact ⟨rfl, rfl, rfl, rfl, fun _ => rfl⟩

/-! ### C3: insert-twice and uniqueness -/

/-- C3: inserting the same word `w` twice into a freshly created store
leaves exactly one entry for `w`, with count 2; and after any sequence of
`insert_word` calls on a freshly created store, the store holds at most
one entry per distinct word string. -/
theorem insert_twice_and_store_unique (n : Nat) (ht : HashTable)
    (h : create_hash_table n = some ht) (ws : List Word) (w : Word) :
    (∀ v, (entriesFor (ws.foldl insert_word ht) v).length ≤ 1) ∧
    entriesFor (insert_word (insert_word ht w) w) w = [⟨w, 2⟩] := by
  constructor
  · intro v
    exact storeInv_entries_le_one _ (storeInv_foldl ht ws (storeInv_create n ht h)) v
  · unfold create_hash_table at h
    by_cases hn : n < 1
    · rw [if_pos hn] at h; exact Option.noConfusion h
    rw [if_neg hn] at h
    injection h with h
    subst h
    have hpos : 0 < n := by omega
    have hi : hash w % n < n := Nat.mod_lt _ hpos
    have hchain1 : insertChain w ((List.replicate n ([] : List Node)).getD (hash w % n) [])
        = [⟨w, 1⟩] := by
      rw [getD_replicate]
      rfl
    have ht1 : insert_word { size := n, table := List.replicate n [] } w
        = { size := n,
            table := (List.replicate n ([] : List Node)).set (hash w % n) [⟨w, 1⟩] } := by
      rw [insert_word]
      simp only [hchain1]
    rw [ht1]
    have hlen : ((List.replicate n ([] : List Node)).set (hash w % n) [⟨w, 1⟩]).length
        = n := by simp
    have hchain2 : insertChain w
        (((List.replicate n ([] : List Node)).set (hash w % n) [⟨w, 1⟩]).getD
          (hash w % n) []) = [⟨w, 2⟩] := by
      rw [getD_set_self _ _ _ _ (by simpa using hi)]
      exact insertChain_cons_self w 1 []
    have ht2 : insert_word
        { size := n,
          table := (List.replicate n ([] : List Node)).set (hash w % n) [⟨w, 1⟩] } w
        = { size := n,
            table := (List.replicate n ([] : List Node)).set (hash w % n) [⟨w, 2⟩] } := by
      rw [insert_word]
      simp only [hchain2, List.set_set]
    rw [ht2]
    unfold entriesFor
    show ((List.replicate n ([] : List Node)).set (hash w % n) [⟨w, 2⟩]).flatten.filter
        (fun nd => nd.word = w) = [⟨w, 2⟩]
    rw [flatten_replicate_set n (hash w % n) [(⟨w, 2⟩ : Node)] hi]
    simp

/-- Concrete instance of C3 at `n = 2`, `ws = [[97]]`, `w = [98]`. -/
theorem insert_twice_and_store_unique_witness :
    create_hash_table 2 = some { size := 2, table := List.replicate 2 [] } ∧
    ((∀ v, (entriesFor ([[97]].foldl insert_word
        { size := 2, table := List.replicate 2 [] }) v).length ≤ 1) ∧
      entriesFor (insert_word (insert_word
        { size := 2, table := List.replicate 2 [] } [98]) [98]) [98]
        = [⟨[98], 2⟩]) :=
  ⟨by decide,
    insert_twice_and_store_unique 2 { size := 2, table := List.replicate 2 [] }
      (by decide) [[97]] [98]⟩

/-! ### C4: bucket placement -/

/-- C4, refuted as stated: the claim places an inserted word's entry in
bucket `hashAcc word % bucket_count`, with `hashAcc` the 64-bit djb2
accumulator described by the spec.  For the word `"hello"` and a store
created with 3 buckets, that index is 0, but the code stores the entry in
bucket 2, because `hash` returns `unsigned int` and truncates the 64-bit
accumulator to 32 bits before the modulo. -/
theorem bucket_index_claim_counterexample :
    create_hash_table 3 = some { size := 3, table := List.replicate 3 [] } ∧
    hashAcc [104, 101, 108, 108, 111] % 3 = 0 ∧
    (insert_word { size := 3, table := List.replicate 3 [] }
        [104, 101, 108, 108, 111]).table.getD 0 [] = [] ∧
    (insert_word { size := 3, table := List.replicate 3 [] }
        [104, 101, 108, 108, 111]).table.getD 2 []
      = [⟨[104, 101, 108, 108, 111], 1⟩] := by
  refine ⟨by decide, by decide, ?_, ?_⟩ <;> decide

/-- C4 as amended: for every store created with `n` buckets and any
sequence of insertions, every entry resides in the bucket at index equal
to the 64-bit djb2 accumulator of its word truncated modulo `2^32` (the
`unsigned int` return type of `hash`) and then taken modulo `n`. -/
theorem bucket_index_truncated_accumulator (n : Nat) (ht : HashTable)
    (h : create_hash_table n = some ht) (ws : List Word) :
    ∀ i : Nat, ∀ nd ∈ (ws.foldl insert_word ht).table.getD i [],
      (hashAcc nd.word % 2 ^ 32) % n = i := by
  have hinv := storeInv_foldl ht ws (storeInv_create n ht h)
  obtain ⟨_, _, hbuck, _⟩ := hinv
  have hsize : (ws.foldl insert_word ht).size = n := by
    rw [foldl_insert_size]
    unfold create_hash_table at h
    by_cases hn : n < 1
    · rw [if_pos hn] at h; exact Option.noConfusion h
    · rw [if_neg hn] at h
      injection h with h
      rw [← h]
  intro i nd hnd
  have := hbuck i nd hnd
  rw [hsize] at this
  exact this

/-- Concrete instance of C4 (amended) at `n = 2`, `ws = [[97]]`. -/
theorem bucket_index_truncated_accumulator_witness :
    create_hash_table 2 = some { size := 2, table := List.replicate 2 [] } ∧
    (∀ i : Nat, ∀ nd ∈ ([[97]].foldl insert_word
        { size := 2, table := List.replicate 2 [] }).table.getD i [],
      (hashAcc nd.word % 2 ^ 32) % 2 = i) :=
  ⟨by decide,
    bucket_index_truncated_accumulator 2
      { size := 2, table := List.replicate 2 [] } (by decide) [[97]]⟩

/-! ### C9: frame property of `insert_word` -/

/-- C9: `insert_word ht w` leaves the entries of every word `v ≠ w`
exactly as they were (same entries, same counts), removes no entry, and
decreases no word's recorded total. -/
theorem insert_word_frame (ht : HashTable) (w : Word) (hWF : WF ht) :
    (∀ v, v ≠ w → entriesFor (insert_word ht w) v = entriesFor ht v) ∧
    (∀ v, (entriesFor ht v).length ≤ (entriesFor (insert_word ht w) v).length) ∧
    (∀ v, wordCount ht v ≤ wordCount (insert_word ht w) v) := by
  obtain ⟨hlen, hpos⟩ := hWF
  have hi : hash w % ht.size < ht.table.length := by
    rw [hlen]; exact Nat.mod_lt _ hpos
  have htab : (insert_word ht w).table
      = ht.table.set (hash w % ht.size)
          (insertChain w (ht.table.getD (hash w % ht.size) [])) := rfl
  refine ⟨?_, ?_, ?_⟩
  · intro v hvw
    unfold entriesFor
    rw [htab]
    exact flatten_set_insertChain_filter_ne w v hvw ht.table _
  · intro v
    by_cases hvw : v = w
    · subst hvw
      unfold entriesFor
      rw [htab]
      exact flatten_set_insertChain_filter_self_le v ht.table _
    · unfold entriesFor
      rw [htab, flatten_set_insertChain_filter_ne w v hvw ht.table _]
  · intro v
    by_cases hvw : v = w
    · subst hvw
      unfold wordCount entriesFor
      rw [htab, flatten_set_insertChain_filter_self_sum v ht.table _ hi]
      omega
    · unfold wordCount entriesFor
      rw [htab, flatten_set_insertChain_filter_ne w v hvw ht.table _]

/-- Concrete instance of C9: inserting `[97]` into a 2-bucket store. -/
theorem insert_word_frame_witness :
    WF { size := 2, table := List.replicate 2 [] } ∧
    ((∀ v, v ≠ [97] → entriesFor (insert_word
        { size := 2, table := List.replicate 2 [] } [97]) v
        = entriesFor { size := 2, table := List.replicate 2 [] } v) ∧
      (∀ v, (entriesFor { size := 2, table := List.replicate 2 [] } v).length
        ≤ (entriesFor (insert_word
            { size := 2, table := List.replicate 2 [] } [97]) v).length) ∧
      (∀ v, wordCount { size := 2, table := List.replicate 2 [] } v
        ≤ wordCount (insert_word
            { size := 2, table := List.replicate 2 [] } [97]) v)) :=
  ⟨by decide, insert_word_frame { size := 2, table := List.replicate 2 [] } [97] (by decide)⟩

/-! ### C10: total count equals number of insertions -/

theorem totalCount_insert (ht : HashTable) (w : Word) (hWF : WF ht) :
    totalCount (insert_word ht w) = totalCount ht + 1 := by
  obtain ⟨hlen, hpos⟩ := hWF
  have hi : hash w % ht.size < ht.table.length := by
    rw [hlen]; exact Nat.mod_lt _ hpos
  unfold totalCount
  rw [show (insert_word ht w).table
      = ht.table.set (hash w % ht.size)
          (insertChain w (ht.table.getD (hash w % ht.size) [])) from rfl]
  exact flatten_set_insertChain_sum w ht.table _ hi

theorem WF_insert (ht : HashTable) (w : Word) (hWF : WF ht) :
    WF (insert_word ht w) := by
  obtain ⟨hlen, hpos⟩ := hWF
  exact ⟨by rw [show (insert_word ht w).table
      = ht.table.set (hash w % ht.size)
          (insertChain w (ht.table.getD (hash w % ht.size) [])) from rfl,
    List.length_set, insert_word_size, hlen], by rw [insert_word_size]; exact hpos⟩

theorem totalCount_foldl (ws : List Word) :
    ∀ ht : HashTable, WF ht →
      totalCount (ws.foldl insert_word ht) = totalCount ht + ws.length := by
  induction ws with
  | nil => intro ht _; rfl
  | cons w rest ih =>
    intro ht hWF
    rw [List.foldl_cons, ih (insert_word ht w) (WF_insert ht w hWF),
      totalCount_insert ht w hWF, List.length_cons]
    omega

/-- C10: after any sequence of `insert_word` calls on a freshly created
store, the sum of the counts over all entries equals the number of calls
(the model assumes every allocation succeeds, as the claim does). -/
theorem total_count_eq_inserts (n : Nat) (ht : HashTable)
    (h : create_hash_table n = some ht) (ws : List Word) :
    totalCount (ws.foldl insert_word ht) = ws.length := by
  unfold create_hash_table at h
  by_cases hn : n < 1
  · rw [if_pos hn] at h; exact Option.noConfusion h
  rw [if_neg hn] at h
  injection h with h
  subst h
  have hWF : WF { size := n, table := List.replicate n ([] : List Node) } :=
    ⟨by simp, Nat.not_lt.mp hn⟩
  rw [totalCount_foldl ws _ hWF]
  have h0 : totalCount { size := n, table := List.replicate n ([] : List Node) } = 0 := by
    unfold totalCount
    rw [show ({ size := n, table := List.replicate n ([] : List Node) }
        : HashTable).table = List.replicate n [] from rfl]
    rw [flatten_replicate_nil]
    rfl
  rw [h0]
  exact Nat.zero_add _

/-- Concrete instance of C10: three insertions into a 2-bucket store. -/
theorem total_count_eq_inserts_witness :
    create_hash_table 2 = some { size := 2, table := List.replicate 2 [] } ∧
    totalCount ([[97], [97], [98]].foldl insert_word
      { size := 2, table := List.replicate 2 [] }) = 3 :=
  ⟨by decide,
    total_count_eq_inserts 2 { size := 2, table := List.replicate 2 [] }
      (by decide) [[97], [97], [98]]⟩

/-! ### Step lemmas for the analysis loop -/

theorem processByte_freq (s : LoopState) (c : Nat) :
    (processByte s c).stats.char_count = s.stats.char_count + 1 ∧
    (processByte s c).stats.char_freq
      = s.stats.char_freq.set c (s.stats.char_freq.getD c 0 + 1) := by
  cases hsp : isspace c <;> cases hiw : s.in_word <;> cases hal : isalpha c <;>
    by_cases hlt : s.word_buffer.length < 99 <;>
      by_cases hb0 : 0 < s.word_buffer.length <;>
        simp [processByte, MAX_WORD_LEN, hsp, hiw, hal, hlt, hb0, apply_ite]

theorem processByte_alpha_spec (s : LoopState) (c : Nat) (hc : isalpha c = true) :
    (processByte s c).stats.word_counts = s.stats.word_counts ∧
    (processByte s c).word_buffer
      = (if s.word_buffer.length < 99 then s.word_buffer ++ [tolower c]
          else s.word_buffer) := by
  cases hsp : isspace c <;> cases hiw : s.in_word <;>
    by_cases hlt : s.word_buffer.length < 99 <;>
      simp [processByte, MAX_WORD_LEN, hc, hsp, hiw, hlt, apply_ite]

theorem processByte_alpha_buffer_ne (s : LoopState) (c : Nat) (hc : isalpha c = true) :
    (processByte s c).word_buffer ≠ [] := by
  obtain ⟨_, hbuf⟩ := processByte_alpha_spec s c hc
  rw [hbuf]
  by_cases hlt : s.word_buffer.length < 99
  · rw [if_pos hlt]
    simp
  · rw [if_neg hlt]
    have : 0 < s.word_buffer.length := by omega
    exact List.ne_nil_of_length_pos this

theorem processByte_nonalpha_flush (s : LoopState) (c : Nat)
    (hc : isalpha c = false) (hb : 0 < s.word_buffer.length) :
    (processByte s c).stats.word_counts
        = insert_word s.stats.word_counts s.word_buffer ∧
    (processByte s c).word_buffer = [] := by
  cases hsp : isspace c <;> cases hiw : s.in_word <;>
    simp [processByte, MAX_WORD_LEN, hc, hsp, hiw, hb, apply_ite]

theorem flushState_of_pending (s : LoopState) (hb : s.word_buffer ≠ []) :
    flushState s
      = { s.stats with
          word_counts := insert_word s.stats.word_counts s.word_buffer } := by
  unfold flushState
  rw [if_pos (List.length_pos.mpr hb)]

theorem flushState_char (s : LoopState) :
    (flushState s).char_count = s.stats.char_count ∧
    (flushState s).char_freq = s.stats.char_freq := by
  unfold flushState
  by_cases hb : 0 < s.word_buffer.length
  · rw [if_pos hb]; exact ⟨rfl, rfl⟩
  · rw [if_neg hb]; exact ⟨rfl, rfl⟩

theorem processByte_line (s : LoopState) (c : Nat) :
    (processByte s c).stats.line_count
      = if c = 10 then s.stats.line_count + 1 else s.stats.line_count := by
  cases hsp : isspace c <;> cases hiw : s.in_word <;> cases hal : isalpha c <;>
    by_cases hlt : s.word_buffer.length < 99 <;>
      by_cases hb0 : 0 < s.word_buffer.length <;>
        simp [processByte, MAX_WORD_LEN, hsp, hiw, hal, hlt, hb0, apply_ite]

theorem processByte_word (s : LoopState) (c : Nat) :
    (processByte s c).stats.word_count
      = (if isspace c then s.stats.word_count
          else if s.in_word then s.stats.word_count
          else s.stats.word_count + 1) ∧
    (processByte s c).in_word = !isspace c := by
  cases hsp : isspace c <;> cases hiw : s.in_word <;> cases hal : isalpha c <;>
    by_cases hlt : s.word_buffer.length < 99 <;>
      by_cases hb0 : 0 < s.word_buffer.length <;>
        simp [processByte, MAX_WORD_LEN, hsp, hiw, hal, hlt, hb0, apply_ite]

theorem processByte_tok (s : LoopState) (c : Nat) :
    ((processByte s c).stats.word_counts, (processByte s c).word_buffer)
      = tokStep (s.stats.word_counts, s.word_buffer) c := by
  cases hsp : isspace c <;> cases hiw : s.in_word <;> cases hal : isalpha c <;>
    by_cases hlt : s.word_buffer.length < 99 <;>
      by_cases hb0 : 0 < s.word_buffer.length <;>
        simp [processByte, tokStep, MAX_WORD_LEN, hsp, hiw, hal, hlt, hb0, apply_ite]

theorem foldl_char_count : ∀ (input : List Nat) (s : LoopState),
    (input.foldl processByte s).stats.char_count
      = s.stats.char_count + input.length := by
  intro input
  induction input with
  | nil => intro s; simp
  | cons c rest ih =>
    intro s
    rw [List.foldl_cons, ih, (processByte_freq s c).1, List.length_cons]
    omega

theorem foldl_line_count : ∀ (input : List Nat) (s : LoopState),
    (input.foldl processByte s).stats.line_count
      = s.stats.line_count + input.count 10 := by
  intro input
  induction input with
  | nil => intro s; simp
  | cons c rest ih =>
    intro s
    rw [List.foldl_cons, ih, processByte_line, List.count_cons]
    by_cases h10 : c = 10 <;> simp [h10] <;> try omega

theorem foldl_word_count : ∀ (input : List Nat) (s : LoopState),
    (input.foldl processByte s).stats.word_count
      = s.stats.word_count + wsWords s.in_word input := by
  intro input
  induction input with
  | nil => intro s; simp [wsWords]
  | cons c rest ih =>
    intro s
    rw [List.foldl_cons, ih]
    obtain ⟨hw, hin⟩ := processByte_word s c
    rw [hw, hin]
    cases hsp : isspace c
    · cases hiw : s.in_word <;> simp [wsWords, hsp, hiw] <;> try omega
    · simp [wsWords, hsp]

theorem foldl_tok : ∀ (input : List Nat) (s : LoopState),
    ((input.foldl processByte s).stats.word_counts,
      (input.foldl processByte s).word_buffer)
      = input.foldl tokStep (s.stats.word_counts, s.word_buffer) := by
  intro input
  induction input with
  | nil => intro s; rfl
  | cons c rest ih =>
    intro s
    rw [List.foldl_cons, List.foldl_cons, ih (processByte s c), processByte_tok]

theorem flushState_more (s : LoopState) :
    (flushState s).word_count = s.stats.word_count ∧
    (flushState s).line_count = s.stats.line_count ∧
    (flushState s).word_counts
      = (if 0 < s.word_buffer.length
          then insert_word s.stats.word_counts s.word_buffer
          else s.stats.word_counts) := by
  unfold flushState
  by_cases hb : 0 < s.word_buffer.length <;> simp [hb]

/-! ### C2: frequency table sums to the character count -/

theorem sum_set_getD_add_one :
    ∀ (l : List Nat) (i : Nat), i < l.length →
      (l.set i (l.getD i 0 + 1)).sum = l.sum + 1 := by
  intro l
  induction l with
  | nil => intro i h; simp at h
  | cons a t ih =>
    intro i hi
    cases i with
    | zero => simp [List.getD_cons_zero]; omega
    | succ j =>
      have hj : j < t.length := by simpa using Nat.lt_of_succ_lt_succ hi
      have hstep := ih j hj
      simp only [List.set_cons_succ, List.getD_cons_succ, List.sum_cons]
      omega

theorem foldl_freq_invariant :
    ∀ (input : List Nat) (s : LoopState),
      (∀ c ∈ input, c < 256) →
      s.stats.char_freq.length = 256 →
      s.stats.char_freq.sum = s.stats.char_count →
      (input.foldl processByte s).stats.char_freq.length = 256 ∧
      (input.foldl processByte s).stats.char_freq.sum
        = (input.foldl processByte s).stats.char_count := by
  intro input
  induction input with
  | nil => intro s _ hlen hsum; exact ⟨hlen, hsum⟩
  | cons c rest ih =>
    intro s hall hlen hsum
    have hc : c < 256 := hall c (List.mem_cons_self c rest)
    have hrest : ∀ x ∈ rest, x < 256 := fun x hx => hall x (List.mem_cons_of_mem c hx)
    obtain ⟨hcnt, hfreq⟩ := processByte_freq s c
    rw [List.foldl_cons]
    refine ih (processByte s c) hrest ?_ ?_
    · rw [hfreq, List.length_set, hlen]
    · rw [hfreq, hcnt, sum_set_getD_add_one _ c (by rw [hlen]; exact hc), hsum]

/-- C2: for every input whose bytes are byte values (< 256) and any starting
stats whose 256-slot frequency table sums to the character counter (in
particular the fresh zeroed stats), after the analysis the sum of the
frequency table equals the character count: each byte read increments both
exactly once. -/
theorem freq_sum_eq_char_count (input : List Nat) (stats : AppStats)
    (hb : ∀ c ∈ input, c < 256)
    (hlen : stats.char_freq.length = 256)
    (hsum : stats.char_freq.sum = stats.char_count) :
    (analyzeBytes input stats).char_freq.sum
      = (analyzeBytes input stats).char_count := by
  unfold analyzeBytes
  obtain ⟨hc, hf⟩ := flushState_char (input.foldl processByte (initLoop stats))
  rw [hc, hf]
  exact (foldl_freq_invariant input (initLoop stats) hb hlen hsum).2

set_option maxRecDepth 10000 in
/-- Concrete instance of C2 on the two-byte input `[65, 10]` from fresh
stats with a 1-bucket store. -/
theorem freq_sum_eq_char_count_witness :
    (∀ c ∈ [65, 10], c < 256) ∧
    (freshStats 1).char_freq.length = 256 ∧
    (freshStats 1).char_freq.sum = (freshStats 1).char_count ∧
    (analyzeBytes [65, 10] (freshStats 1)).char_freq.sum
      = (analyzeBytes [65, 10] (freshStats 1)).char_count :=
  ⟨by decide, by decide, by decide,
    freq_sum_eq_char_count [65, 10] (freshStats 1) (by decide) (by decide) (by decide)⟩

/-! ### C6: the pending final token is flushed -/

/-- C6: when the input ends in an alphabetic byte (so the stream ends with
a pending token and no trailing delimiter), the loop leaves a non-empty
token buffer, and the analysis result is exactly the loop result with that
pending token inserted into the word store once before returning. -/
theorem final_token_flushed (ys : List Nat) (c : Nat) (stats : AppStats)
    (hc : isalpha c = true) :
    ((ys ++ [c]).foldl processByte (initLoop stats)).word_buffer ≠ [] ∧
    analyzeBytes (ys ++ [c]) stats
      = { ((ys ++ [c]).foldl processByte (initLoop stats)).stats with
          word_counts :=
            insert_word
              ((ys ++ [c]).foldl processByte (initLoop stats)).stats.word_counts
              ((ys ++ [c]).foldl processByte (initLoop stats)).word_buffer } := by
  have hbuf : ((ys ++ [c]).foldl processByte (initLoop stats)).word_buffer ≠ [] := by
    rw [List.foldl_append, List.foldl_cons, List.foldl_nil]
    exact processByte_alpha_buffer_ne _ c hc
  exact ⟨hbuf, flushState_of_pending _ hbuf⟩

/-- Concrete instance of C6: input `"a"` (no trailing delimiter). -/
theorem final_token_flushed_witness :
    isalpha 97 = true ∧
    (([] ++ [97]).foldl processByte (initLoop (freshStats 1))).word_buffer ≠ [] ∧
    analyzeBytes ([] ++ [97]) (freshStats 1)
      = { (([] ++ [97]).foldl processByte (initLoop (freshStats 1))).stats with
          word_counts :=
            insert_word
              (([] ++ [97]).foldl processByte (initLoop (freshStats 1))).stats.word_counts
              (([] ++ [97]).foldl processByte (initLoop (freshStats 1))).word_buffer } :=
  ⟨by decide, final_token_flushed [] 97 (freshStats 1) (by decide)⟩

/-! ### C7: over-long tokens are truncated to 99 characters -/

theorem foldl_alpha_run :
    ∀ (run : List Nat) (s : LoopState), (∀ c ∈ run, isalpha c = true) →
      (run.foldl processByte s).stats.word_counts = s.stats.word_counts ∧
      (run.foldl processByte s).word_buffer
        = s.word_buffer ++ (run.map tolower).take (99 - s.word_buffer.length) := by
  intro run
  induction run with
  | nil => intro s _; simp
  | cons c rest ih =>
    intro s hall
    have hc : isalpha c = true := hall c (List.mem_cons_self c rest)
    have hrest : ∀ x ∈ rest, isalpha x = true :=
      fun x hx => hall x (List.mem_cons_of_mem c hx)
    rw [List.foldl_cons]
    obtain ⟨hwc, hbuf⟩ := ih (processByte s c) hrest
    obtain ⟨hwc1, hbuf1⟩ := processByte_alpha_spec s c hc
    refine ⟨by rw [hwc, hwc1], ?_⟩
    rw [hbuf, hbuf1]
    by_cases hlt : s.word_buffer.length < 99
    · rw [if_pos hlt]
      have hlen1 : (s.word_buffer ++ [tolower c]).length
          = s.word_buffer.length + 1 := by simp
      have h99 : 99 - s.word_buffer.length
          = (99 - (s.word_buffer.length + 1)) + 1 := by omega
      rw [hlen1, List.map_cons, h99, List.take_succ_cons, List.append_assoc,
        List.singleton_append]
    · rw [if_neg hlt]
      have h99 : 99 - s.word_buffer.length = 0 := by omega
      rw [List.map_cons, h99]
      simp

/-- C7: a maximal alphabetic run longer than the 99-character token buffer
capacity, entered with an empty buffer and terminated by a non-alphabetic
byte, inserts into the word store exactly one token — the first 99 bytes of
the run case-folded to lowercase — and leaves the buffer empty, so the
excess bytes are dropped and start no new token. -/
theorem long_token_truncated (s : LoopState) (run : List Nat) (d : Nat)
    (hrun : ∀ c ∈ run, isalpha c = true) (hlen : 99 < run.length)
    (hd : isalpha d = false) (hbuf : s.word_buffer = []) :
    ((run ++ [d]).foldl processByte s).stats.word_counts
        = insert_word s.stats.word_counts ((run.map tolower).take 99) ∧
    ((run ++ [d]).foldl processByte s).word_buffer = [] := by
  rw [List.foldl_append, List.foldl_cons, List.foldl_nil]
  obtain ⟨hwc, hb⟩ := foldl_alpha_run run s hrun
  rw [hbuf] at hb
  simp only [List.length_nil, Nat.sub_zero, List.nil_append] at hb
  have hpos : 0 < ((run.foldl processByte s).word_buffer).length := by
    rw [hb, List.length_take, List.length_map]
    omega
  obtain ⟨h1, h2⟩ := processByte_nonalpha_flush (run.foldl processByte s) d hd hpos
  exact ⟨by rw [h1, hwc, hb], h2⟩

/-- Concrete instance of C7: 100 letters `'a'` followed by `'.'`. -/
theorem long_token_truncated_witness :
    (∀ c ∈ List.replicate 100 97, isalpha c = true) ∧
    99 < (List.replicate 100 97).length ∧
    isalpha 46 = false ∧
    (initLoop (freshStats 1)).word_buffer = [] ∧
    ((List.replicate 100 97 ++ [46]).foldl processByte
        (initLoop (freshStats 1))).stats.word_counts
      = insert_word (initLoop (freshStats 1)).stats.word_counts
          (((List.replicate 100 97).map tolower).take 99) ∧
    ((List.replicate 100 97 ++ [46]).foldl processByte
        (initLoop (freshStats 1))).word_buffer = [] := by
  refine ⟨by decide, by decide, by decide, by decide, ?_⟩
  exact long_token_truncated (initLoop (freshStats 1)) (List.replicate 100 97) 46
    (by decide) (by decide) (by decide) (by decide)

/-! ### C1: the `"Cat cat CAT.\n"` scenario -/

theorem insert_word_empty_table (n : Nat) (w : Word) :
    insert_word { size := n, table := List.replicate n [] } w
      = { size := n,
          table := (List.replicate n ([] : List Node)).set (hash w % n)
            [(⟨w, 1⟩ : Node)] } := by
  rw [insert_word]
  simp only [getD_replicate]
  rfl

theorem insert_word_same_again (n k : Nat) (hpos : 0 < n) (w : Word) :
    insert_word
        { size := n,
          table := (List.replicate n ([] : List Node)).set (hash w % n)
            [(⟨w, k⟩ : Node)] } w
      = { size := n,
          table := (List.replicate n ([] : List Node)).set (hash w % n)
            [(⟨w, k + 1⟩ : Node)] } := by
  have hi : hash w % n < (List.replicate n ([] : List Node)).length := by
    simpa using Nat.mod_lt (hash w) hpos
  rw [insert_word]
  simp only [getD_set_self _ _ _ _ hi, insertChain_cons_self, List.set_set]

theorem wordCount_single_entry (n k : Nat) (hpos : 0 < n) (w v : Word) :
    wordCount
        { size := n,
          table := (List.replicate n ([] : List Node)).set (hash w % n)
            [(⟨w, k⟩ : Node)] } v
      = if v = w then k else 0 := by
  have hi : hash w % n < n := Nat.mod_lt _ hpos
  unfold wordCount entriesFor
  show ((((List.replicate n ([] : List Node)).set (hash w % n)
      [(⟨w, k⟩ : Node)]).flatten.filter (fun nd => nd.word = v)).map Node.count).sum = _
  rw [flatten_replicate_set n _ _ hi]
  by_cases hv : v = w
  · subst hv; simp
  · have : ¬ (w = v) := fun hc => hv hc.symm
    simp [this, hv]

/-- C1: analyzing the bytes of `"Cat cat CAT.\n"` with fresh zeroed stats
and a freshly created word store yields character count 13, whitespace
word count 3, line count 1, and a store whose word-to-count mapping is
exactly `{"cat" : 3}` (`"cat"` = bytes `[99, 97, 116]`). -/
theorem analyze_cat_scenario (n : Nat) (ht : HashTable)
    (h : create_hash_table n = some ht) :
    (analyzeBytes [67, 97, 116, 32, 99, 97, 116, 32, 67, 65, 84, 46, 10]
        { char_count := 0, word_count := 0, line_count := 0,
          char_freq := List.replicate 256 0, word_counts := ht }).char_count = 13 ∧
    (analyzeBytes [67, 97, 116, 32, 99, 97, 116, 32, 67, 65, 84, 46, 10]
        { char_count := 0, word_count := 0, line_count := 0,
          char_freq := List.replicate 256 0, word_counts := ht }).word_count = 3 ∧
    (analyzeBytes [67, 97, 116, 32, 99, 97, 116, 32, 67, 65, 84, 46, 10]
        { char_count := 0, word_count := 0, line_count := 0,
          char_freq := List.replicate 256 0, word_counts := ht }).line_count = 1 ∧
    ∀ w : Word,
      wordCount (analyzeBytes [67, 97, 116, 32, 99, 97, 116, 32, 67, 65, 84, 46, 10]
        { char_count := 0, word_count := 0, line_count := 0,
          char_freq := List.replicate 256 0, word_counts := ht }).word_counts w
        = if w = [99, 97, 116] then 3 else 0 := by
  unfold create_hash_table at h
  by_cases hn : n < 1
  · rw [if_pos hn] at h; exact Option.noConfusion h
  rw [if_neg hn] at h
  injection h with h
  subst h
  have hpos : 0 < n := by omega
  refine ⟨?_, ?_, ?_, ?_⟩
  · unfold analyzeBytes
    rw [(flushState_char _).1, foldl_char_count]
    rfl
  · unfold analyzeBytes
    rw [(flushState_more _).1, foldl_word_count]
    rfl
  · unfold analyzeBytes
    rw [(flushState_more _).2.1, foldl_line_count]
    rfl
  · intro w
    have htok := foldl_tok [67, 97, 116, 32, 99, 97, 116, 32, 67, 65, 84, 46, 10]
      (initLoop (freshStats n))
    have htok2 : [67, 97, 116, 32, 99, 97, 116, 32, 67, 65, 84, 46, 10].foldl tokStep
        (({ size := n, table := List.replicate n [] } : HashTable), ([] : List Nat))
        = (insert_word (insert_word (insert_word
            { size := n, table := List.replicate n [] } [99, 97, 116]) [99, 97, 116])
            [99, 97, 116], []) := rfl
    have h0 : ((initLoop (freshStats n)).stats.word_counts,
          (initLoop (freshStats n)).word_buffer)
        = (({ size := n, table := List.replicate n [] } : HashTable),
            ([] : List Nat)) := rfl
    rw [h0, htok2, Prod.mk.injEq] at htok
    obtain ⟨h1, h2⟩ := htok
    show wordCount (flushState
        ([67, 97, 116, 32, 99, 97, 116, 32, 67, 65, 84, 46, 10].foldl processByte
          (initLoop (freshStats n)))).word_counts w
      = if w = [99, 97, 116] then 3 else 0
    rw [(flushState_more _).2.2, h2, h1,
      if_neg (by simp : ¬ 0 < ([] : List Nat).length)]
    rw [insert_word_empty_table, insert_word_same_again n 1 hpos,
      insert_word_same_again n 2 hpos, wordCount_single_entry n 3 hpos]

/-- Concrete instance of C1 with a 3-bucket store. -/
theorem analyze_cat_scenario_witness :
    create_hash_table 3 = some { size := 3, table := List.replicate 3 [] } ∧
    ((analyzeBytes [67, 97, 116, 32, 99, 97, 116, 32, 67, 65, 84, 46, 10]
        { char_count := 0, word_count := 0, line_count := 0,
          char_freq := List.replicate 256 0,
          word_counts := { size := 3, table := List.replicate 3 [] } }).char_count = 13 ∧
      (analyzeBytes [67, 97, 116, 32, 99, 97, 116, 32, 67, 65, 84, 46, 10]
        { char_count := 0, word_count := 0, line_count := 0,
          char_freq := List.replicate 256 0,
          word_counts := { size := 3, table := List.replicate 3 [] } }).word_count = 3 ∧
      (analyzeBytes [67, 97, 116, 32, 99, 97, 116, 32, 67, 65, 84, 46, 10]
        { char_count := 0, word_count := 0, line_count := 0,
          char_freq := List.replicate 256 0,
          word_counts := { size := 3, table := List.replicate 3 [] } }).line_count = 1 ∧
      ∀ w : Word,
        wordCount (analyzeBytes [67, 97, 116, 32, 99, 97, 116, 32, 67, 65, 84, 46, 10]
          { char_count := 0, word_count := 0, line_count := 0,
            char_freq := List.replicate 256 0,
            word_counts := { size := 3, table := List.replicate 3 [] } }).word_counts w
          = if w = [99, 97, 116] then 3 else 0) :=
  ⟨by decide,
    analyze_cat_scenario 3 { size := 3, table := List.replicate 3 [] } (by decide)⟩

end TextAnalyzer
